import Mathlib

/-!
Shallow embedding of the tone-mapping and pixel-format conversion code in
`enhance.c` and `pixconv.c`, with theorems checking the specification's
claims against it.

Modelling conventions:
* bytes and 32-bit pixel words are `Nat`, with explicit `% 256` and
  `% 2 ^ 32` where the code relies on the machine width;
* C floating-point arithmetic is modelled exactly over `ℚ`; the C casts
  `(l_int32) x` / `(l_uint8) x` (truncation toward zero, low byte) are
  `truncTZ` / `byteOfInt`;
* transcendental C calls (`atan`, `pow`) are parameters of the embedding:
  functions that use them take the mathematical function as an argument;
* an image buffer is its list of rows, each row the list of pixel samples
  (bytes for 8 bpp, 32-bit words for 32 bpp); loops become `List.map` or
  structural recursion in the same scan order; a C null-return error is
  `Option.none`.
-/

set_option maxRecDepth 100000

namespace Leptonica

/-- C cast of a float value to an integer type (`(l_int32) x`): truncation
toward zero. -/
def truncTZ (x : ℚ) : ℤ := if 0 ≤ x then ⌊x⌋ else ⌈x⌉

/-- Storing an integer into an 8-bit sample (`SET_DATA_BYTE`, `(l_uint8)`)
keeps its low 8 bits. -/
def byteOfInt (v : ℤ) : ℕ := (v % 256).toNat

/-- COLOR_RED: position of the red sample in a 32-bit pixel word (MSB). -/
def COLOR_RED : ℕ := 0

/-- COLOR_GREEN: position of the green sample in a 32-bit pixel word. -/
def COLOR_GREEN : ℕ := 1

/-- COLOR_BLUE: position of the blue sample in a 32-bit pixel word. -/
def COLOR_BLUE : ℕ := 2

/-- GET_DATA_BYTE on a 32-bit pixel word: byte `n`, counting from the most
significant byte (the code assumes R is the MSB). -/
def getByte32 (w n : ℕ) : ℕ := (w >>> ((3 - n) * 8)) % 256

/-! ### enhance.c: TRC generation -/

/-- Modelled from the spec: the numeric sequence container constructor
`numaMakeSequence(startval, increment, size)` (numa code, not part of this
excerpt): entry `i` is `startval + increment * i`. -/
def numaMakeSequence (startval increment : ℚ) (size : ℕ) : List ℚ :=
  (List.range size).map (fun i : ℕ => startval + increment * (i : ℚ))

/-- ENHANCE_SCALE_FACTOR from enhance.c. -/
def ENHANCE_SCALE_FACTOR : ℚ := 5

/-- The divisor `dely = ymax - ymin` computed by `numaContrastTRC`;
`arctan` is the embedding parameter standing for the C `atan`. -/
def contrastDely (arctan : ℚ → ℚ) (factor : ℚ) : ℚ :=
  arctan (1 * factor * ENHANCE_SCALE_FACTOR) -
    arctan (-127 * factor * ENHANCE_SCALE_FACTOR / 128)

/-- The atan-branch table of `numaContrastTRC` (its `for` loop over
`i = 0 .. 255`); entries are the `l_int32` values added to the numa. -/
def contrastAtanTable (arctan : ℚ → ℚ) (factor : ℚ) : List ℚ :=
  (List.range 256).map (fun i : ℕ =>
    ((truncTZ ((255 / contrastDely arctan factor) *
        (-(arctan (-127 * factor * ENHANCE_SCALE_FACTOR / 128)) +
          arctan (factor * ENHANCE_SCALE_FACTOR * ((i : ℚ) - 127) / 128)) +
        1/2) : ℤ) : ℚ))

/-- numaContrastTRC from enhance.c: a negative factor warns and returns the
linear map; otherwise the atan-based table is built. -/
def numaContrastTRC (arctan : ℚ → ℚ) (factor : ℚ) : List ℚ :=
  if factor < 0 then numaMakeSequence 0 1 256
  else contrastAtanTable arctan factor

/-- numaGammaTRC from enhance.c; `powf` is the embedding parameter standing
for the C `pow`. Entries are the values added to the numa; `none` is the
null error return for `minval >= maxval`. -/
def numaGammaTRC (powf : ℚ → ℚ → ℚ) (gamma : ℚ) (minval maxval : ℤ) :
    Option (List ℤ) :=
  if maxval ≤ minval then none
  else
    let g := if gamma ≤ 0 then 1 else gamma
    let invgamma := 1 / g
    let pre := (List.range minval.toNat).map (fun _ => (0 : ℤ))
    let mid := (((List.range (maxval - minval + 1).toNat).map
        (fun k : ℕ => minval + (k : ℤ))).filter
          (fun i => decide (0 ≤ i ∧ i ≤ 255))).map
      (fun i =>
        let x : ℚ := ((i - minval : ℤ) : ℚ) / ((maxval - minval : ℤ) : ℚ)
        min (max (truncTZ (255 * powf x invgamma + 1/2)) 0) 255)
    let post := (List.range (255 - maxval).toNat).map (fun _ => (255 : ℤ))
    some (pre ++ mid ++ post)

/-! ### enhance.c: pixTRCMap -/

/-- An uncolormapped image buffer at one of the two depths pixTRCMap
accepts. -/
inductive Pix where
  | gray8 (rows : List (List ℕ))
  | rgb32 (rows : List (List ℕ))
deriving DecidableEq

/-- A 1 bpp mask with its own width and height; `bit i j` is the mask bit
at row `i`, column `j` (GET_DATA_BIT). -/
structure MaskPix where
  w : ℕ
  h : ℕ
  bit : ℕ → ℕ → Bool

/-- The integer lut built from the numa: `tab[i]`. -/
def tabOf (na : List ℕ) : ℕ → ℕ := fun i => na.getD i 0

/-- The 8 bpp remap of one sample: `dval8 = tab[sval8]`, stored back with
SET_DATA_BYTE. -/
def trcByte (tab : ℕ → ℕ) (v : ℕ) : ℕ := tab v % 256

/-- The 32 bpp remap of one pixel word: the r, g and b lanes are looked up
in the table; nothing is or-ed into the low (alpha) byte. -/
def trcPixel32 (tab : ℕ → ℕ) (s : ℕ) : ℕ :=
  (tab (s >>> 24) <<< 24 ||| tab ((s >>> 16) % 256) <<< 16 |||
    tab ((s >>> 8) % 256) <<< 8) % 2 ^ 32

/-- The unmasked double loop of pixTRCMap: every sample of every row is
remapped by `f`. -/
def trcMapRows (f : ℕ → ℕ) (rows : List (List ℕ)) : List (List ℕ) :=
  rows.map (fun row => row.map f)

/-- The masked inner loop of pixTRCMap over one row, starting at column
`j`: the loop breaks at the mask width and skips samples whose mask bit
is 0. -/
def trcRowMasked (f : ℕ → ℕ) (m : MaskPix) (i : ℕ) : ℕ → List ℕ → List ℕ
  | _, [] => []
  | j, v :: vs =>
    (if j < m.w ∧ m.bit i j then f v else v) :: trcRowMasked f m i (j + 1) vs

/-- The masked outer loop of pixTRCMap, starting at row `i`: the loop
breaks at the mask height. -/
def trcRowsMasked (f : ℕ → ℕ) (m : MaskPix) :
    ℕ → List (List ℕ) → List (List ℕ)
  | _, [] => []
  | i, r :: rs =>
    (if i < m.h then trcRowMasked f m i 0 r else r) ::
      trcRowsMasked f m (i + 1) rs

/-- pixTRCMap from enhance.c: applies a 256-entry map in place to an 8 bpp
or 32 bpp image, optionally under a 1 bpp mask; the in-place result is
returned as a value, `none` is the error return (here: table not of
size 256). -/
def pixTRCMap (pixs : Pix) (pixm : Option MaskPix) (na : List ℕ) :
    Option Pix :=
  if na.length = 256 then
    match pixs, pixm with
    | .gray8 rows, none =>
      some (.gray8 (trcMapRows (trcByte (tabOf na)) rows))
    | .gray8 rows, some m =>
      some (.gray8 (trcRowsMasked (trcByte (tabOf na)) m 0 rows))
    | .rgb32 rows, none =>
      some (.rgb32 (trcMapRows (trcPixel32 (tabOf na)) rows))
    | .rgb32 rows, some m =>
      some (.rgb32 (trcRowsMasked (trcPixel32 (tabOf na)) m 0 rows))
  else none

/-- The rows of a `Pix`. -/
def pixRows : Pix → List (List ℕ)
  | .gray8 rows => rows
  | .rgb32 rows => rows

/-- The sample at row `i`, column `j` of a row list (0 outside). -/
def sampleAt (rows : List (List ℕ)) (i j : ℕ) : ℕ := (rows.getD i []).getD j 0

/-! ### pixconv.c: RGB to gray -/

/-- L_RED_WEIGHT from pixconv.c. -/
def L_RED_WEIGHT : ℚ := 3 / 10

/-- L_GREEN_WEIGHT from pixconv.c. -/
def L_GREEN_WEIGHT : ℚ := 5 / 10

/-- L_BLUE_WEIGHT from pixconv.c. -/
def L_BLUE_WEIGHT : ℚ := 2 / 10

/-- The gray sample pixConvertRGBToGray computes for one 32-bit pixel word:
`(l_uint8)(rwt * r + gwt * g + bwt * b + 0.5)`. -/
def graySample (rwt gwt bwt : ℚ) (p : ℕ) : ℕ :=
  byteOfInt (truncTZ (rwt * getByte32 p COLOR_RED +
    gwt * getByte32 p COLOR_GREEN + bwt * getByte32 p COLOR_BLUE + 1/2))

/-- pixConvertRGBToGray from pixconv.c: all-zero weights select the default
triple; weights whose sum is more than 0.0001 away from 1 are the null
error return. -/
def pixConvertRGBToGray (rows : List (List ℕ)) (rwt gwt bwt : ℚ) :
    Option (List (List ℕ)) :=
  let w := if rwt = 0 ∧ gwt = 0 ∧ bwt = 0 then
      (L_RED_WEIGHT, L_GREEN_WEIGHT, L_BLUE_WEIGHT)
    else (rwt, gwt, bwt)
  if 1 / 10000 < |w.1 + w.2.1 + w.2.2 - 1| then none
  else some (rows.map (fun row => row.map (graySample w.1 w.2.1 w.2.2)))

/-- pixConvertRGBToLuminance from pixconv.c. -/
def pixConvertRGBToLuminance (rows : List (List ℕ)) :
    Option (List (List ℕ)) :=
  pixConvertRGBToGray rows 0 0 0

/-- pixConvert8To32 (uncolormapped case) from pixconv.c: the gray byte is
replicated into the 3 most significant bytes via the 256-entry table
`tab[i] = (i << 24) | (i << 16) | (i << 8)`. -/
def pixConvert8To32 (rows : List (List ℕ)) : List (List ℕ) :=
  rows.map (fun row => row.map (fun v => v <<< 24 ||| v <<< 16 ||| v <<< 8))

/-! ### pixconv.c: RGB to HSV -/

/-- convertRGBToHSV from pixconv.c: returns (h, s, v). -/
def convertRGBToHSV (rval gval bval : ℤ) : ℤ × ℤ × ℤ :=
  let minrg := min rval gval
  let mn := min minrg bval
  let maxrg := max rval gval
  let mx := max maxrg bval
  let delta := mx - mn
  if delta = 0 then (0, 0, mx)
  else
    let s := truncTZ (255 * (delta : ℚ) / (mx : ℚ) + 1/2)
    let h0 : ℚ :=
      if rval = mx then ((gval : ℚ) - (bval : ℚ)) / (delta : ℚ)
      else if gval = mx then 2 + ((bval : ℚ) - (rval : ℚ)) / (delta : ℚ)
      else 4 + ((rval : ℚ) - (gval : ℚ)) / (delta : ℚ)
    let h1 := h0 * 40
    let h2 := if h1 < 0 then h1 + 240 else h1
    (truncTZ (h2 + 1/2), s, mx)

/-! ### pixconv.c: RGB to colormap -/

/-- Modelled from the spec: interleave the low `n` bits of the three
truncated channel values, the r bit above the g bit above the b bit at
each position (the rtab/gtab/btab tables of makeRGBToIndexTables, which
lives in the colorquant code, not part of this excerpt). -/
def interleave3 : ℕ → ℕ → ℕ → ℕ → ℕ
  | 0, _, _, _ => 0
  | n + 1, r, g, b =>
    interleave3 n (r / 2) (g / 2) (b / 2) * 8 +
      4 * (r % 2) + 2 * (g % 2) + b % 2

/-- Modelled from the spec: the octcube cell index of one 32-bit pixel word
at a given level: each channel truncated to its top `level` bits, then
interleaved (`rtab[rval] | gtab[gval] | btab[bval]`). -/
def octPixelIndex (level : ℕ) (p : ℕ) : ℕ :=
  interleave3 level (getByte32 p COLOR_RED >>> (8 - level))
    (getByte32 p COLOR_GREEN >>> (8 - level))
    (getByte32 p COLOR_BLUE >>> (8 - level))

/-- SAFE_VALUE_FOR_REQUESTED_COLORS from pixconv.c. -/
def SAFE_VALUE_FOR_REQUESTED_COLORS : ℕ := 220

/-- Modelled from the spec: the UNDEF sentinel left in `*pnerrors` (from
the library's environment header, not part of this excerpt; its concrete
value is irrelevant to the claims). -/
def UNDEF : ℤ := -1

/-- Lookup of one octcube cell: the code's `octarray[octindex]` together
with `colorarray`; the cells are kept in first-seen order, so the stored
`cindex - 1` is the cell's position. Returns the emitted colormap index
and the recorded winning color. -/
def cubeLookup (idx : ℕ) : List (ℕ × ℕ) → ℕ → Option (ℕ × ℕ)
  | [], _ => none
  | ic :: rest, pos =>
    if ic.1 = idx then some (pos, ic.2) else cubeLookup idx rest (pos + 1)

/-- The index-assignment re-scan of pixConvertRGBToColormap over the pixels
in scan order. On first occurrence of an octcube the pixel's color wins
the cell and the next free index is emitted; on later occurrences the
recorded index is emitted and a differing literal color counts one
error. Returns the final cells, the error count and the emitted
indices. -/
def quantScan (level : ℕ) :
    List ℕ → List (ℕ × ℕ) → ℕ → List (ℕ × ℕ) × ℕ × List ℕ
  | [], cells, nerr => (cells, nerr, [])
  | p :: ps, cells, nerr =>
    let idx := octPixelIndex level p
    match cubeLookup idx cells 0 with
    | none =>
      let r := quantScan level ps (cells ++ [(idx, p)]) nerr
      (r.1, r.2.1, cells.length :: r.2.2)
    | some pc =>
      let r := quantScan level ps cells (if pc.2 = p then nerr else nerr + 1)
      (r.1, r.2.1, pc.1 :: r.2.2)

/-- The two ways pixConvertRGBToColormap produces an image: delegation to
pixOctreeColorQuant (an external collaborator, recorded with its
arguments), or the exact indexed image. -/
inductive ColormapResult where
  | fallback (reqcolors dither : ℕ)
  | exact (depth : ℕ) (pixels : List ℕ) (cmap : List (ℕ × ℕ × ℕ))
deriving DecidableEq

/-- pixConvertRGBToColormap from pixconv.c, returning the image result
together with the final value of `*pnerrors`. The occupied-octcube count
of pixOctcubeHistogram is the number of distinct cell indices among the
pixels. -/
def pixConvertRGBToColormap (rows : List (List ℕ)) (level : ℕ) :
    Option (ColormapResult × ℤ) :=
  if level < 1 ∨ 6 < level then none
  else
    let ps := rows.flatten
    let ncolors := (ps.map (octPixelIndex level)).dedup.length
    if 256 < ncolors then
      some (.fallback SAFE_VALUE_FOR_REQUESTED_COLORS 1, UNDEF)
    else
      let depth := if ncolors ≤ 4 then 2 else if ncolors ≤ 16 then 4 else 8
      let r := quantScan level ps [] 0
      some (.exact depth r.2.2
        (r.1.map (fun ic => (getByte32 ic.2 COLOR_RED,
          getByte32 ic.2 COLOR_GREEN, getByte32 ic.2 COLOR_BLUE))),
        (r.2.1 : ℤ))

/-- Whether a ColormapResult took the exact path. -/
def ColormapResult.isExact : ColormapResult → Bool
  | .fallback _ _ => false
  | .exact _ _ _ => true

/-- The number of colormap entries of an exact ColormapResult. -/
def ColormapResult.cmapSize : ColormapResult → ℕ
  | .fallback _ _ => 0
  | .exact _ _ cmap => cmap.length

/-! ## Helper lemmas -/

theorem truncTZ_of_nonneg {x : ℚ} (h : 0 ≤ x) : truncTZ x = ⌊x⌋ := if_pos h

theorem truncTZ_eq {q : ℚ} {z : ℤ} (h1 : (z : ℚ) ≤ q) (h2 : q < z + 1)
    (h3 : 0 ≤ z) : truncTZ q = z := by
  have hq : (0 : ℚ) ≤ q := le_trans (by exact_mod_cast h3) h1
  rw [truncTZ_of_nonneg hq]
  exact Int.floor_eq_iff.mpr ⟨h1, h2⟩

theorem floor_one_half : ⌊(1 / 2 : ℚ)⌋ = 0 := by
  rw [Int.floor_eq_iff]
  norm_num

theorem truncTZ_nonneg {x : ℚ} (h : 0 ≤ x) : 0 ≤ truncTZ x := by
  rw [truncTZ_of_nonneg h]
  exact Int.le_floor.mpr (by exact_mod_cast h)

theorem truncTZ_le {x : ℚ} {z : ℤ} (hx : 0 ≤ x) (h : x < (z : ℚ) + 1) :
    truncTZ x ≤ z := by
  rw [truncTZ_of_nonneg hx]
  have hlt : ⌊x⌋ < z + 1 := Int.floor_lt.mpr (by push_cast; exact h)
  omega

/-! ## Claims -/

/-- Claim C6: for every gray input R=G=B=v, convertRGBToHSV returns exactly
H=0, S=0 and V=v; and for every input the value component is
max(R,G,B). -/
theorem claim_C6 :
    (∀ v : ℤ, convertRGBToHSV v v v = (0, 0, v)) ∧
    (∀ r g b : ℤ, (convertRGBToHSV r g b).2.2 = max (max r g) b) := by
  constructor
  · intro v
    simp [convertRGBToHSV]
  · intro r g b
    by_cases h : max (max r g) b - min (min r g) b = 0 <;>
      simp [convertRGBToHSV, h]

/-- Claim C1 (code bug evidence): at factor = 0 numaContrastTRC does not
take the linear-sequence branch (the guard is `factor < 0`); it computes
the atan-form table whose divisor `dely` is 0.  In this exact model, where
division by zero yields 0, every entry becomes trunc(0 + 1/2) = 0 whatever
`atan` is, so the table is not the linear sequence 0..255; in the C code
the entries are `(l_int32)` casts of NaN.  The claim describes the
intended identity ramp, which the code misses at exactly factor = 0. -/
theorem claim_C1 (arctan : ℚ → ℚ) :
    numaContrastTRC arctan 0 = contrastAtanTable arctan 0 ∧
    contrastDely arctan 0 = 0 ∧
    numaContrastTRC arctan 0 = List.replicate 256 (0 : ℚ) ∧
    numaContrastTRC arctan 0 ≠ numaMakeSequence 0 1 256 := by
  have hbranch : numaContrastTRC arctan 0 = contrastAtanTable arctan 0 := by
    unfold numaContrastTRC
    rw [if_neg (by norm_num)]
  have hzero : numaContrastTRC arctan 0 = List.replicate 256 (0 : ℚ) := by
    rw [hbranch]
    unfold contrastAtanTable
    rw [List.eq_replicate_iff]
    refine ⟨by rw [List.length_map, List.length_range], ?_⟩
    intro x hx
    simp only [List.mem_map] at hx
    obtain ⟨i, _, rfl⟩ := hx
    norm_num [ENHANCE_SCALE_FACTOR]
    rw [truncTZ_eq (z := 0) (by norm_num) (by norm_num) le_rfl]
  refine ⟨hbranch, ?_, hzero, ?_⟩
  · unfold contrastDely
    norm_num
  · intro hcontra
    have hmem : (0 : ℚ) + 1 * ((1 : ℕ) : ℚ) ∈ numaMakeSequence 0 1 256 := by
      unfold numaMakeSequence
      exact List.mem_map.mpr ⟨1, List.mem_range.mpr (by norm_num), rfl⟩
    rw [← hcontra, hzero] at hmem
    have h2 := List.eq_of_mem_replicate hmem
    norm_num at h2

/-- Claim C3 counterexample: for R=128, G=0, B=1 (channels in [0,255], not
all equal) the hue returned by convertRGBToHSV is exactly 240, so the hue
is not strictly less than 240. -/
theorem claim_C3_cex :
    convertRGBToHSV 128 0 1 = (240, 255, 128) ∧ ¬ ((240 : ℤ) < 240) := by
  refine ⟨?_, by omega⟩
  have hmn : min (min (128 : ℤ) 0) 1 = 0 := by decide
  have hmx : max (max (128 : ℤ) 0) 1 = 128 := by decide
  simp only [convertRGBToHSV, hmn, hmx]
  rw [if_neg (by decide : ¬((128 : ℤ) - 0 = 0))]
  rw [if_pos trivial]
  rw [if_pos (by norm_num :
    (((0 : ℤ) : ℚ) - ((1 : ℤ) : ℚ)) / (((128 : ℤ) - 0 : ℤ) : ℚ) * 40 < 0)]
  rw [Prod.mk.injEq, Prod.mk.injEq]
  refine ⟨?_, ?_, rfl⟩
  · exact truncTZ_eq (by norm_num) (by norm_num) (by norm_num)
  · exact truncTZ_eq (by norm_num) (by norm_num) (by norm_num)

/-- Claim C7: numaGammaTRC(1.0, 0, 255) is the identity table, entry i = i
for i in [0,255], whenever the pow model maps x^1 to x (as the C library
pow does). -/
theorem claim_C7 (powf : ℚ → ℚ → ℚ) (hpow : ∀ x : ℚ, powf x 1 = x) :
    numaGammaTRC powf 1 0 255 =
      some ((List.range 256).map (fun i : ℕ => (i : ℤ))) := by
  simp only [numaGammaTRC]
  rw [if_neg (by norm_num), if_neg (by norm_num), one_div_one]
  simp only [hpow]
  rw [show ((0 : ℤ).toNat) = 0 from rfl,
    show (((255 : ℤ) - 255).toNat) = 0 from rfl,
    show (((255 : ℤ) - 0 + 1).toNat) = 256 from rfl]
  simp only [List.range_zero, List.map_nil, List.nil_append, List.append_nil]
  have hcast : (List.range 256).map (fun k : ℕ => (0 : ℤ) + (k : ℤ)) =
      (List.range 256).map (fun k : ℕ => (k : ℤ)) :=
    List.map_congr_left (fun a _ => zero_add _)
  rw [hcast]
  have hfil : ((List.range 256).map fun k : ℕ => (k : ℤ)).filter
      (fun i => decide (0 ≤ i ∧ i ≤ 255)) =
      (List.range 256).map fun k : ℕ => (k : ℤ) := by
    apply List.filter_eq_self.mpr
    intro a ha
    simp only [List.mem_map, List.mem_range] at ha
    obtain ⟨k, hk, rfl⟩ := ha
    simp only [decide_eq_true_eq]
    omega
  rw [hfil, List.map_map]
  refine congrArg some (List.map_congr_left ?_)
  intro k hk
  simp only [List.mem_range] at hk
  simp only [Function.comp]
  have hx : (255 : ℚ) * ((((k : ℤ) - 0 : ℤ) : ℚ) /
      ((((255 : ℤ) - 0) : ℤ) : ℚ)) + 1 / 2 = (k : ℚ) + 1 / 2 := by
    push_cast
    field_simp
  rw [hx, truncTZ_of_nonneg (by positivity), Int.floor_nat_add,
    floor_one_half, add_zero]
  have h1 : (0 : ℤ) ≤ (k : ℤ) := by omega
  have h2 : (k : ℤ) ≤ 255 := by omega
  rw [max_eq_left h1, min_eq_left h2]

/-- Claim C7 witness at the exact pow model. -/
theorem claim_C7_witness :
    numaGammaTRC (fun x _ => x) 1 0 255 =
      some ((List.range 256).map (fun i : ℕ => (i : ℤ))) :=
  claim_C7 (fun x _ => x) (fun _ => rfl)

/-- Claim C3 (amended): for channels in [0,255], not all equal, the hue
returned by convertRGBToHSV lies in the closed range [0, 240]; the value
240 is attainable by rounding (claim_C3_cex) and is identified with 0 by
wraparound. -/
theorem claim_C3 (r g b : ℤ) (h1r : 0 ≤ r) (h2r : r ≤ 255) (h1g : 0 ≤ g)
    (h2g : g ≤ 255) (h1b : 0 ≤ b) (h2b : b ≤ 255) (hne : ¬(r = g ∧ g = b)) :
    0 ≤ (convertRGBToHSV r g b).1 ∧ (convertRGBToHSV r g b).1 ≤ 240 := by
  unfold convertRGBToHSV
  by_cases hd : max (max r g) b - min (min r g) b = 0
  · exact absurd (by omega : r = g ∧ g = b) hne
  · rw [if_neg hd]
    dsimp only
    have hδq : (0 : ℚ) < ((max (max r g) b - min (min r g) b : ℤ) : ℚ) := by
      exact_mod_cast (by omega : (0:ℤ) < max (max r g) b - min (min r g) b)
    by_cases hR : r = max (max r g) b
    · rw [if_pos hR]
      have hub : (g : ℚ) - (b : ℚ) ≤
          ((max (max r g) b - min (min r g) b : ℤ) : ℚ) := by
        exact_mod_cast (by omega : g - b ≤ max (max r g) b - min (min r g) b)
      have hlb : -((max (max r g) b - min (min r g) b : ℤ) : ℚ) ≤
          (g : ℚ) - (b : ℚ) := by
        exact_mod_cast
          (by omega : -(max (max r g) b - min (min r g) b) ≤ g - b)
      have hq1 : ((g : ℚ) - (b : ℚ)) /
          ((max (max r g) b - min (min r g) b : ℤ) : ℚ) ≤ 1 :=
        (div_le_one hδq).mpr hub
      have hq2 : -1 ≤ ((g : ℚ) - (b : ℚ)) /
          ((max (max r g) b - min (min r g) b : ℤ) : ℚ) := by
        rw [le_div_iff₀ hδq]
        linarith
      by_cases hneg : ((g : ℚ) - (b : ℚ)) /
          ((max (max r g) b - min (min r g) b : ℤ) : ℚ) * 40 < 0
      · rw [if_pos hneg]
        exact ⟨truncTZ_nonneg (by linarith),
          truncTZ_le (by linarith)
            (by rw [show ((240 : ℤ) : ℚ) = 240 from by norm_num]; linarith)⟩
      · rw [if_neg hneg]
        push_neg at hneg
        exact ⟨truncTZ_nonneg (by linarith),
          truncTZ_le (by linarith)
            (by rw [show ((240 : ℤ) : ℚ) = 240 from by norm_num]; linarith)⟩
    · rw [if_neg hR]
      by_cases hG : g = max (max r g) b
      · rw [if_pos hG]
        have hub : (b : ℚ) - (r : ℚ) ≤
            ((max (max r g) b - min (min r g) b : ℤ) : ℚ) := by
          exact_mod_cast
            (by omega : b - r ≤ max (max r g) b - min (min r g) b)
        have hlb : -((max (max r g) b - min (min r g) b : ℤ) : ℚ) ≤
            (b : ℚ) - (r : ℚ) := by
          exact_mod_cast
            (by omega : -(max (max r g) b - min (min r g) b) ≤ b - r)
        have hq1 : ((b : ℚ) - (r : ℚ)) /
            ((max (max r g) b - min (min r g) b : ℤ) : ℚ) ≤ 1 :=
          (div_le_one hδq).mpr hub
        have hq2 : -1 ≤ ((b : ℚ) - (r : ℚ)) /
            ((max (max r g) b - min (min r g) b : ℤ) : ℚ) := by
          rw [le_div_iff₀ hδq]
          linarith
        rw [if_neg (by linarith :
          ¬(2 + ((b : ℚ) - (r : ℚ)) /
            ((max (max r g) b - min (min r g) b : ℤ) : ℚ)) * 40 < 0)]
        exact ⟨truncTZ_nonneg (by linarith),
          truncTZ_le (by linarith)
            (by rw [show ((240 : ℤ) : ℚ) = 240 from by norm_num]; linarith)⟩
      · rw [if_neg hG]
        have hub : (r : ℚ) - (g : ℚ) ≤
            ((max (max r g) b - min (min r g) b : ℤ) : ℚ) := by
          exact_mod_cast
            (by omega : r - g ≤ max (max r g) b - min (min r g) b)
        have hlb : -((max (max r g) b - min (min r g) b : ℤ) : ℚ) ≤
            (r : ℚ) - (g : ℚ) := by
          exact_mod_cast
            (by omega : -(max (max r g) b - min (min r g) b) ≤ r - g)
        have hq1 : ((r : ℚ) - (g : ℚ)) /
            ((max (max r g) b - min (min r g) b : ℤ) : ℚ) ≤ 1 :=
          (div_le_one hδq).mpr hub
        have hq2 : -1 ≤ ((r : ℚ) - (g : ℚ)) /
            ((max (max r g) b - min (min r g) b : ℤ) : ℚ) := by
          rw [le_div_iff₀ hδq]
          linarith
        rw [if_neg (by linarith :
          ¬(4 + ((r : ℚ) - (g : ℚ)) /
            ((max (max r g) b - min (min r g) b : ℤ) : ℚ)) * 40 < 0)]
        exact ⟨truncTZ_nonneg (by linarith),
          truncTZ_le (by linarith)
            (by rw [show ((240 : ℤ) : ℚ) = 240 from by norm_num]; linarith)⟩

/-- Claim C3 witness: the amended bound applied at the pure red pixel. -/
theorem claim_C3_witness :
    0 ≤ (convertRGBToHSV 255 0 0).1 ∧ (convertRGBToHSV 255 0 0).1 ≤ 240 :=
  claim_C3 255 0 0 (by norm_num) (by norm_num) (by norm_num) (by norm_num)
    (by norm_num) (by norm_num) (by norm_num)

theorem lor3_eq_add (a : ℕ) {b c : ℕ} (hb : b < 256) (hc : c < 256) :
    a <<< 24 ||| b <<< 16 ||| c <<< 8 =
      a * 2 ^ 24 + b * 2 ^ 16 + c * 2 ^ 8 := by
  have e1 : (2 : ℕ) ^ 8 = 256 := by norm_num
  have e2 : (2 : ℕ) ^ 16 = 65536 := by norm_num
  have e3 : (2 : ℕ) ^ 24 = 16777216 := by norm_num
  have h1 : 2 ^ 8 * c < 2 ^ 16 := by omega
  have h2 : 2 ^ 16 * b + 2 ^ 8 * c < 2 ^ 24 := by omega
  rw [Nat.shiftLeft_eq, Nat.shiftLeft_eq, Nat.shiftLeft_eq, Nat.or_assoc,
    Nat.mul_comm a, Nat.mul_comm b, Nat.mul_comm c,
    ← Nat.mul_add_lt_is_or h1, ← Nat.mul_add_lt_is_or h2]
  ring

theorem getByte32_red {a b c : ℕ} (ha : a < 256) (hb : b < 256)
    (hc : c < 256) :
    getByte32 (a * 2 ^ 24 + b * 2 ^ 16 + c * 2 ^ 8) COLOR_RED = a := by
  simp only [getByte32, COLOR_RED, Nat.shiftRight_eq_div_pow]
  have e1 : (2 : ℕ) ^ 8 = 256 := by norm_num
  have e2 : (2 : ℕ) ^ 16 = 65536 := by norm_num
  have e3 : (2 : ℕ) ^ 24 = 16777216 := by norm_num
  have e4 : (2 : ℕ) ^ ((3 - 0) * 8) = 16777216 := by norm_num
  omega

theorem getByte32_green {a b c : ℕ} (ha : a < 256) (hb : b < 256)
    (hc : c < 256) :
    getByte32 (a * 2 ^ 24 + b * 2 ^ 16 + c * 2 ^ 8) COLOR_GREEN = b := by
  simp only [getByte32, COLOR_GREEN, Nat.shiftRight_eq_div_pow]
  have e1 : (2 : ℕ) ^ 8 = 256 := by norm_num
  have e2 : (2 : ℕ) ^ 16 = 65536 := by norm_num
  have e3 : (2 : ℕ) ^ 24 = 16777216 := by norm_num
  have e4 : (2 : ℕ) ^ ((3 - 1) * 8) = 65536 := by norm_num
  omega

theorem getByte32_blue {a b c : ℕ} (ha : a < 256) (hb : b < 256)
    (hc : c < 256) :
    getByte32 (a * 2 ^ 24 + b * 2 ^ 16 + c * 2 ^ 8) COLOR_BLUE = c := by
  simp only [getByte32, COLOR_BLUE, Nat.shiftRight_eq_div_pow]
  have e1 : (2 : ℕ) ^ 8 = 256 := by norm_num
  have e2 : (2 : ℕ) ^ 16 = 65536 := by norm_num
  have e3 : (2 : ℕ) ^ 24 = 16777216 := by norm_num
  have e4 : (2 : ℕ) ^ ((3 - 2) * 8) = 256 := by norm_num
  omega

theorem getByte32_lt (w n : ℕ) : getByte32 w n < 256 :=
  Nat.mod_lt _ (by norm_num)

/-- The weighted gray sample is the rounded weighted sum whenever the
weights are nonnegative and sum to at most 1 + 1/10000: the byte store
does not wrap. -/
theorem graySample_eq_floor {rwt gwt bwt : ℚ} (hr : 0 ≤ rwt) (hg : 0 ≤ gwt)
    (hb : 0 ≤ bwt) (hsum : rwt + gwt + bwt ≤ 1 + 1 / 10000) (p : ℕ) :
    graySample rwt gwt bwt p =
      (⌊rwt * (getByte32 p COLOR_RED : ℚ) +
        gwt * (getByte32 p COLOR_GREEN : ℚ) +
        bwt * (getByte32 p COLOR_BLUE : ℚ) + 1 / 2⌋).toNat := by
  unfold graySample
  have hR : ((getByte32 p COLOR_RED : ℕ) : ℚ) ≤ 255 := by
    exact_mod_cast Nat.le_of_lt_succ (getByte32_lt p COLOR_RED)
  have hG : ((getByte32 p COLOR_GREEN : ℕ) : ℚ) ≤ 255 := by
    exact_mod_cast Nat.le_of_lt_succ (getByte32_lt p COLOR_GREEN)
  have hB : ((getByte32 p COLOR_BLUE : ℕ) : ℚ) ≤ 255 := by
    exact_mod_cast Nat.le_of_lt_succ (getByte32_lt p COLOR_BLUE)
  have hR0 : (0 : ℚ) ≤ ((getByte32 p COLOR_RED : ℕ) : ℚ) := by positivity
  have hG0 : (0 : ℚ) ≤ ((getByte32 p COLOR_GREEN : ℕ) : ℚ) := by positivity
  have hB0 : (0 : ℚ) ≤ ((getByte32 p COLOR_BLUE : ℕ) : ℚ) := by positivity
  have h0 : (0 : ℚ) ≤ rwt * (getByte32 p COLOR_RED : ℚ) +
      gwt * (getByte32 p COLOR_GREEN : ℚ) +
      bwt * (getByte32 p COLOR_BLUE : ℚ) + 1 / 2 := by positivity
  have hub : rwt * (getByte32 p COLOR_RED : ℚ) +
      gwt * (getByte32 p COLOR_GREEN : ℚ) +
      bwt * (getByte32 p COLOR_BLUE : ℚ) + 1 / 2 < 256 := by
    have m1 : rwt * (getByte32 p COLOR_RED : ℚ) ≤ rwt * 255 :=
      mul_le_mul_of_nonneg_left hR hr
    have m2 : gwt * (getByte32 p COLOR_GREEN : ℚ) ≤ gwt * 255 :=
      mul_le_mul_of_nonneg_left hG hg
    have m3 : bwt * (getByte32 p COLOR_BLUE : ℚ) ≤ bwt * 255 :=
      mul_le_mul_of_nonneg_left hB hb
    nlinarith
  rw [truncTZ_of_nonneg h0]
  unfold byteOfInt
  have hfl0 : 0 ≤ ⌊rwt * (getByte32 p COLOR_RED : ℚ) +
      gwt * (getByte32 p COLOR_GREEN : ℚ) +
      bwt * (getByte32 p COLOR_BLUE : ℚ) + 1 / 2⌋ :=
    Int.le_floor.mpr (by exact_mod_cast h0)
  have hfl1 : ⌊rwt * (getByte32 p COLOR_RED : ℚ) +
      gwt * (getByte32 p COLOR_GREEN : ℚ) +
      bwt * (getByte32 p COLOR_BLUE : ℚ) + 1 / 2⌋ < 256 :=
    Int.floor_lt.mpr (by exact_mod_cast hub)
  rw [Int.emod_eq_of_lt hfl0 hfl1]

/-- One gray byte, replicated to the three color lanes by pixConvert8To32,
comes back unchanged through the default-weight gray conversion. -/
theorem gray_of_replicated {v : ℕ} (hv : v < 256) :
    graySample L_RED_WEIGHT L_GREEN_WEIGHT L_BLUE_WEIGHT
      (v <<< 24 ||| v <<< 16 ||| v <<< 8) = v := by
  have hcomp : v <<< 24 ||| v <<< 16 ||| v <<< 8 =
      v * 2 ^ 24 + v * 2 ^ 16 + v * 2 ^ 8 := lor3_eq_add v hv hv
  unfold graySample
  rw [hcomp, getByte32_red hv hv hv, getByte32_green hv hv hv,
    getByte32_blue hv hv hv]
  have hsum : L_RED_WEIGHT * (v : ℚ) + L_GREEN_WEIGHT * (v : ℚ) +
      L_BLUE_WEIGHT * (v : ℚ) + 1 / 2 = (v : ℚ) + 1 / 2 := by
    unfold L_RED_WEIGHT L_GREEN_WEIGHT L_BLUE_WEIGHT
    ring
  rw [hsum, truncTZ_of_nonneg (by positivity), Int.floor_nat_add,
    floor_one_half, add_zero]
  unfold byteOfInt
  rw [Int.emod_eq_of_lt (by positivity) (by exact_mod_cast hv),
    Int.toNat_natCast]

/-- Claim C8: for every 8 bpp image, converting to 32 bpp with
pixConvert8To32 and back with pixConvertRGBToLuminance reproduces every
byte exactly. -/
theorem claim_C8 (rows : List (List ℕ))
    (hb : ∀ row ∈ rows, ∀ v ∈ row, v < 256) :
    pixConvertRGBToLuminance (pixConvert8To32 rows) = some rows := by
  simp only [pixConvertRGBToLuminance, pixConvertRGBToGray]
  rw [if_pos (⟨trivial, trivial, trivial⟩ : True ∧ True ∧ True)]
  dsimp only
  rw [if_neg (show ¬(1 / 10000 <
      |L_RED_WEIGHT + L_GREEN_WEIGHT + L_BLUE_WEIGHT - 1|) from by
    norm_num [L_RED_WEIGHT, L_GREEN_WEIGHT, L_BLUE_WEIGHT])]
  refine congrArg some ?_
  unfold pixConvert8To32
  rw [List.map_map]
  have hrows : ∀ row ∈ rows,
      ((fun row => List.map
          (graySample L_RED_WEIGHT L_GREEN_WEIGHT L_BLUE_WEIGHT) row) ∘
        fun row => row.map (fun v => v <<< 24 ||| v <<< 16 ||| v <<< 8))
        row = row := by
    intro row hrow
    simp only [Function.comp_apply, List.map_map]
    have hv : ∀ v ∈ row,
        ((graySample L_RED_WEIGHT L_GREEN_WEIGHT L_BLUE_WEIGHT) ∘
          fun v => v <<< 24 ||| v <<< 16 ||| v <<< 8) v = v := by
      intro v hvv
      exact gray_of_replicated (hb row hrow v hvv)
    rw [List.map_congr_left hv, List.map_id']
  rw [List.map_congr_left hrows, List.map_id']

/-- Claim C8 witness at a concrete grayscale image. -/
theorem claim_C8_witness :
    pixConvertRGBToLuminance (pixConvert8To32 [[0, 255], [7, 128]]) =
      some [[0, 255], [7, 128]] :=
  claim_C8 [[0, 255], [7, 128]] (by decide)

/-- Claim C9: all-zero weights select the default triple (0.3, 0.5, 0.2)
and succeed, with each output sample the rounded default weighted sum;
nonzero weights whose sum is off 1 by more than the 1/10000 tolerance
fail with the null return and no output; accepted nonnegative weights
produce round(rwt*R + gwt*G + bwt*B) at every pixel. -/
theorem claim_C9 (rows : List (List ℕ)) (rwt gwt bwt : ℚ) :
    (pixConvertRGBToGray rows 0 0 0 =
      some (rows.map (fun row => row.map (fun p =>
        (⌊L_RED_WEIGHT * (getByte32 p COLOR_RED : ℚ) +
          L_GREEN_WEIGHT * (getByte32 p COLOR_GREEN : ℚ) +
          L_BLUE_WEIGHT * (getByte32 p COLOR_BLUE : ℚ) +
          1 / 2⌋).toNat)))) ∧
    (¬(rwt = 0 ∧ gwt = 0 ∧ bwt = 0) → 1 / 10000 < |rwt + gwt + bwt - 1| →
      pixConvertRGBToGray rows rwt gwt bwt = none) ∧
    (¬(rwt = 0 ∧ gwt = 0 ∧ bwt = 0) → |rwt + gwt + bwt - 1| ≤ 1 / 10000 →
      0 ≤ rwt → 0 ≤ gwt → 0 ≤ bwt →
      pixConvertRGBToGray rows rwt gwt bwt =
        some (rows.map (fun row => row.map (fun p =>
          (⌊rwt * (getByte32 p COLOR_RED : ℚ) +
            gwt * (getByte32 p COLOR_GREEN : ℚ) +
            bwt * (getByte32 p COLOR_BLUE : ℚ) + 1 / 2⌋).toNat)))) := by
  refine ⟨?_, ?_, ?_⟩
  · simp only [pixConvertRGBToGray]
    rw [if_pos (⟨trivial, trivial, trivial⟩ : True ∧ True ∧ True)]
    dsimp only
    rw [if_neg (show ¬(1 / 10000 <
        |L_RED_WEIGHT + L_GREEN_WEIGHT + L_BLUE_WEIGHT - 1|) from by
      norm_num [L_RED_WEIGHT, L_GREEN_WEIGHT, L_BLUE_WEIGHT])]
    refine congrArg some (List.map_congr_left ?_)
    intro row _
    refine List.map_congr_left ?_
    intro p _
    exact graySample_eq_floor (by norm_num [L_RED_WEIGHT])
      (by norm_num [L_GREEN_WEIGHT]) (by norm_num [L_BLUE_WEIGHT])
      (by norm_num [L_RED_WEIGHT, L_GREEN_WEIGHT, L_BLUE_WEIGHT]) p
  · intro hnz hoff
    simp only [pixConvertRGBToGray]
    rw [if_neg hnz]
    dsimp only
    rw [if_pos hoff]
  · intro hnz hok hr hg hb
    simp only [pixConvertRGBToGray]
    rw [if_neg hnz]
    dsimp only
    rw [if_neg (not_lt.mpr hok)]
    refine congrArg some (List.map_congr_left ?_)
    intro row _
    refine List.map_congr_left ?_
    intro p _
    have hsum : rwt + gwt + bwt ≤ 1 + 1 / 10000 := by
      have := (abs_le.mp hok).2
      linarith
    exact graySample_eq_floor hr hg hb hsum p

/-- Claim C9 witness: accepted weights (1/2, 1/4, 1/4) on a one-pixel
image. -/
theorem claim_C9_witness :
    ¬((1 / 2 : ℚ) = 0 ∧ (1 / 4 : ℚ) = 0 ∧ (1 / 4 : ℚ) = 0) ∧
    |(1 / 2 : ℚ) + 1 / 4 + 1 / 4 - 1| ≤ 1 / 10000 ∧
    pixConvertRGBToGray [[4278190080]] (1 / 2) (1 / 4) (1 / 4) =
      some ([[4278190080]].map (fun row => row.map (fun p =>
        (⌊(1 / 2 : ℚ) * (getByte32 p COLOR_RED : ℚ) +
          (1 / 4 : ℚ) * (getByte32 p COLOR_GREEN : ℚ) +
          (1 / 4 : ℚ) * (getByte32 p COLOR_BLUE : ℚ) + 1 / 2⌋).toNat))) :=
  ⟨by norm_num, by norm_num,
    (claim_C9 [[4278190080]] (1 / 2) (1 / 4) (1 / 4)).2.2 (by norm_num)
      (by norm_num) (by norm_num) (by norm_num) (by norm_num)⟩

theorem tabOf_lt {na : List ℕ} (hv : ∀ x ∈ na, x < 256) (i : ℕ) :
    tabOf na i < 256 := by
  unfold tabOf
  rw [List.getD_eq_getElem?_getD]
  by_cases h : i < na.length
  · rw [List.getElem?_eq_getElem h]
    simp only [Option.getD_some]
    exact hv _ (List.getElem_mem h)
  · rw [List.getElem?_eq_none (by omega)]
    simp only [Option.getD_none]
    norm_num

theorem trcPixel32_eq {na : List ℕ} (hv : ∀ x ∈ na, x < 256) {p : ℕ}
    (hp : p < 2 ^ 32) :
    trcPixel32 (tabOf na) p =
      tabOf na (getByte32 p COLOR_RED) * 2 ^ 24 +
      tabOf na (getByte32 p COLOR_GREEN) * 2 ^ 16 +
      tabOf na (getByte32 p COLOR_BLUE) * 2 ^ 8 := by
  have e24 : (2 : ℕ) ^ 24 = 16777216 := by norm_num
  have e32 : (2 : ℕ) ^ 32 = 4294967296 := by norm_num
  have h24 : p >>> 24 < 256 := by
    rw [Nat.shiftRight_eq_div_pow]
    omega
  have hred : getByte32 p COLOR_RED = p >>> 24 := Nat.mod_eq_of_lt h24
  have hgreen : getByte32 p COLOR_GREEN = (p >>> 16) % 256 := rfl
  have hblue : getByte32 p COLOR_BLUE = (p >>> 8) % 256 := rfl
  unfold trcPixel32
  rw [lor3_eq_add _ (tabOf_lt hv _) (tabOf_lt hv _), hred, hgreen, hblue]
  apply Nat.mod_eq_of_lt
  have t1 := tabOf_lt hv (p >>> 24)
  have t2 := tabOf_lt hv ((p >>> 16) % 256)
  have t3 := tabOf_lt hv ((p >>> 8) % 256)
  have e16 : (2 : ℕ) ^ 16 = 65536 := by norm_num
  have e8 : (2 : ℕ) ^ 8 = 256 := by norm_num
  omega

theorem trcPixel32_alpha {na : List ℕ} (hv : ∀ x ∈ na, x < 256) {p : ℕ}
    (hp : p < 2 ^ 32) : getByte32 (trcPixel32 (tabOf na) p) 3 = 0 := by
  rw [trcPixel32_eq hv hp]
  unfold getByte32
  rw [Nat.shiftRight_eq_div_pow]
  have e24 : (2 : ℕ) ^ 24 = 16777216 := by norm_num
  have e16 : (2 : ℕ) ^ 16 = 65536 := by norm_num
  have e8 : (2 : ℕ) ^ 8 = 256 := by norm_num
  have e0 : (2 : ℕ) ^ ((3 - 3) * 8) = 1 := by norm_num
  omega

/-- Claim C2 counterexample: with the identity table, the 32 bpp pixel
0x00000001 (alpha byte 1) is mapped to 0, so the least significant
(alpha) byte is cleared rather than left unchanged. -/
theorem claim_C2_cex :
    pixTRCMap (.rgb32 [[1]]) none (List.range 256) =
      some (.rgb32 [[0]]) ∧
    getByte32 1 3 = 1 ∧ getByte32 0 3 = 0 :=
  ⟨by decide, by decide, by decide⟩

/-- Claim C2 (amended): for every 32 bpp image and 256-entry byte table,
pixTRCMap maps each of the r, g, b lanes through the table and sets the
fourth (alpha, least significant) byte of every pixel to zero. -/
theorem claim_C2 (rows : List (List ℕ)) (na : List ℕ)
    (hna : na.length = 256) (hv : ∀ x ∈ na, x < 256)
    (hp : ∀ row ∈ rows, ∀ p ∈ row, p < 2 ^ 32) :
    pixTRCMap (.rgb32 rows) none na =
      some (.rgb32 (rows.map (fun row => row.map (fun p =>
        tabOf na (getByte32 p COLOR_RED) * 2 ^ 24 +
        tabOf na (getByte32 p COLOR_GREEN) * 2 ^ 16 +
        tabOf na (getByte32 p COLOR_BLUE) * 2 ^ 8)))) ∧
    (∀ row ∈ rows, ∀ p ∈ row,
      getByte32 (trcPixel32 (tabOf na) p) 3 = 0) := by
  constructor
  · simp only [pixTRCMap]
    rw [if_pos hna]
    refine congrArg some (congrArg Pix.rgb32 ?_)
    unfold trcMapRows
    refine List.map_congr_left ?_
    intro row hrow
    refine List.map_congr_left ?_
    intro p hpp
    exact trcPixel32_eq hv (hp row hrow p hpp)
  · intro row hrow p hpp
    exact trcPixel32_alpha hv (hp row hrow p hpp)

/-- Claim C2 witness: the amended statement at a one-pixel red image with
the identity table. -/
theorem claim_C2_witness :
    (List.range 256).length = 256 ∧
    pixTRCMap (.rgb32 [[16777216]]) none (List.range 256) =
      some (.rgb32 ([[16777216]].map (fun row => row.map (fun p =>
        tabOf (List.range 256) (getByte32 p COLOR_RED) * 2 ^ 24 +
        tabOf (List.range 256) (getByte32 p COLOR_GREEN) * 2 ^ 16 +
        tabOf (List.range 256) (getByte32 p COLOR_BLUE) * 2 ^ 8)))) :=
  ⟨by decide, (claim_C2 [[16777216]] (List.range 256) (by decide)
    (by decide) (by decide)).1⟩

theorem trcRowMasked_getD (f : ℕ → ℕ) (m : MaskPix) (i : ℕ) :
    ∀ (vs : List ℕ) (j k : ℕ),
      (trcRowMasked f m i j vs).getD k 0 =
        if k < vs.length ∧ j + k < m.w ∧ m.bit i (j + k) = true then
          f (vs.getD k 0)
        else vs.getD k 0 := by
  intro vs
  induction vs with
  | nil =>
    intro j k
    simp [trcRowMasked]
  | cons v vs ih =>
    intro j k
    cases k with
    | zero =>
      simp only [trcRowMasked, List.getD_cons_zero]
      by_cases hc : j < m.w ∧ m.bit i j = true
      · rw [if_pos hc, if_pos ⟨Nat.succ_pos _, by simpa using hc⟩]
      · rw [if_neg hc, if_neg (by
          intro hcon
          exact hc (by simpa using hcon.2))]
    | succ k =>
      simp only [trcRowMasked, List.getD_cons_succ]
      rw [ih (j + 1) k]
      have hadd : j + 1 + k = j + (k + 1) := by omega
      rw [hadd]
      refine if_congr ?_ rfl rfl
      constructor
      · rintro ⟨h1, h2⟩
        refine ⟨?_, h2⟩
        simp only [List.length_cons]
        omega
      · rintro ⟨h1, h2⟩
        refine ⟨?_, h2⟩
        simp only [List.length_cons] at h1
        omega

theorem trcRowsMasked_getD (f : ℕ → ℕ) (m : MaskPix) :
    ∀ (rs : List (List ℕ)) (i0 i : ℕ),
      (trcRowsMasked f m i0 rs).getD i [] =
        if i < rs.length ∧ i0 + i < m.h then
          trcRowMasked f m (i0 + i) 0 (rs.getD i [])
        else rs.getD i [] := by
  intro rs
  induction rs with
  | nil =>
    intro i0 i
    simp [trcRowsMasked]
  | cons r rs ih =>
    intro i0 i
    cases i with
    | zero =>
      simp only [trcRowsMasked, List.getD_cons_zero]
      by_cases hc : i0 < m.h
      · rw [if_pos hc, if_pos ⟨Nat.succ_pos _, by simpa using hc⟩,
          Nat.add_zero]
      · rw [if_neg hc, if_neg (by
          intro hcon
          exact hc (by simpa using hcon.2))]
    | succ i =>
      simp only [trcRowsMasked, List.getD_cons_succ]
      rw [ih (i0 + 1) i]
      have hadd : i0 + 1 + i = i0 + (i + 1) := by omega
      rw [hadd]
      refine if_congr ?_ rfl rfl
      constructor
      · rintro ⟨h1, h2⟩
        refine ⟨?_, h2⟩
        simp only [List.length_cons]
        omega
      · rintro ⟨h1, h2⟩
        refine ⟨?_, h2⟩
        simp only [List.length_cons] at h1
        omega

/-- The frame property of one masked pass: a sample is remapped exactly
when it lies inside the mask extent under a set bit, any other sample is
unchanged. -/
theorem trcRowsMasked_sample_frame (f : ℕ → ℕ) (m : MaskPix)
    (rows : List (List ℕ)) (i j : ℕ) :
    ((m.h ≤ i ∨ m.w ≤ j ∨ m.bit i j = false) →
      sampleAt (trcRowsMasked f m 0 rows) i j = sampleAt rows i j) ∧
    (i < m.h → j < m.w → m.bit i j = true →
      j < (rows.getD i []).length →
      sampleAt (trcRowsMasked f m 0 rows) i j = f (sampleAt rows i j)) := by
  constructor
  · intro hcond
    unfold sampleAt
    rw [trcRowsMasked_getD]
    by_cases hrow : i < rows.length ∧ 0 + i < m.h
    · rw [if_pos hrow]
      rw [trcRowMasked_getD]
      rw [if_neg ?_]
      rintro ⟨h1, h2, h3⟩
      rcases hcond with h | h | h
      · omega
      · omega
      · simp only [Nat.zero_add] at h3
        rw [h] at h3
        exact Bool.false_ne_true h3
    · rw [if_neg hrow]
  · intro hi hj hbit hjlen
    unfold sampleAt
    rw [trcRowsMasked_getD]
    have hilen : i < rows.length := by
      by_contra hcon
      push_neg at hcon
      have hnil : rows.getD i [] = [] := by
        rw [List.getD_eq_getElem?_getD, List.getElem?_eq_none hcon]
        rfl
      rw [hnil] at hjlen
      simp at hjlen
    rw [if_pos ⟨hilen, by omega⟩]
    rw [trcRowMasked_getD]
    rw [if_pos ⟨by simpa using hjlen, by omega, by simpa using hbit⟩]

/-- Claim C5: under a mask, pixTRCMap (8 or 32 bpp) leaves every sample
with a clear mask bit, and every sample beyond the mask's width or
height, bit-for-bit unchanged; only samples under a set mask bit inside
the image are remapped, by the table for 8 bpp and by the per-lane table
map for 32 bpp. -/
theorem claim_C5 (rows : List (List ℕ)) (m : MaskPix) (na : List ℕ)
    (hna : na.length = 256) (i j : ℕ) :
    ((m.h ≤ i ∨ m.w ≤ j ∨ m.bit i j = false) →
      ((pixTRCMap (.gray8 rows) (some m) na).map
          (fun q => sampleAt (pixRows q) i j) = some (sampleAt rows i j) ∧
        (pixTRCMap (.rgb32 rows) (some m) na).map
          (fun q => sampleAt (pixRows q) i j) = some (sampleAt rows i j))) ∧
    (i < m.h → j < m.w → m.bit i j = true →
      j < (rows.getD i []).length →
      ((pixTRCMap (.gray8 rows) (some m) na).map
          (fun q => sampleAt (pixRows q) i j) =
            some (trcByte (tabOf na) (sampleAt rows i j)) ∧
        (pixTRCMap (.rgb32 rows) (some m) na).map
          (fun q => sampleAt (pixRows q) i j) =
            some (trcPixel32 (tabOf na) (sampleAt rows i j)))) := by
  have hg := trcRowsMasked_sample_frame (trcByte (tabOf na)) m rows i j
  have hr := trcRowsMasked_sample_frame (trcPixel32 (tabOf na)) m rows i j
  have e1 : pixTRCMap (.gray8 rows) (some m) na =
      some (.gray8 (trcRowsMasked (trcByte (tabOf na)) m 0 rows)) := by
    simp only [pixTRCMap]
    rw [if_pos hna]
  have e2 : pixTRCMap (.rgb32 rows) (some m) na =
      some (.rgb32 (trcRowsMasked (trcPixel32 (tabOf na)) m 0 rows)) := by
    simp only [pixTRCMap]
    rw [if_pos hna]
  rw [e1, e2]
  simp only [Option.map_some', pixRows]
  exact ⟨fun hc => ⟨congrArg some (hg.1 hc), congrArg some (hr.1 hc)⟩,
    fun h1 h2 h3 h4 => ⟨congrArg some (hg.2 h1 h2 h3 h4),
      congrArg some (hr.2 h1 h2 h3 h4)⟩⟩

/-- Claim C5 witness: the spec's scenario, a 4x4 image of value 7, mask
set only at (0,0) and (3,3), all-zero table: the sample at (0,1) is
unchanged and the sample at (0,0) is zeroed. -/
theorem claim_C5_witness :
    (List.replicate 256 0 : List ℕ).length = 256 ∧
    (pixTRCMap (.gray8 [[7, 7, 7, 7], [7, 7, 7, 7], [7, 7, 7, 7],
        [7, 7, 7, 7]])
      (some (MaskPix.mk 4 4
        (fun i j => (i == 0 && j == 0) || (i == 3 && j == 3))))
      (List.replicate 256 0)).map
        (fun q => sampleAt (pixRows q) 0 1) = some 7 ∧
    (pixTRCMap (.gray8 [[7, 7, 7, 7], [7, 7, 7, 7], [7, 7, 7, 7],
        [7, 7, 7, 7]])
      (some (MaskPix.mk 4 4
        (fun i j => (i == 0 && j == 0) || (i == 3 && j == 3))))
      (List.replicate 256 0)).map
        (fun q => sampleAt (pixRows q) 0 0) = some 0 := by
  refine ⟨by decide, ?_, ?_⟩
  · have h := (claim_C5 [[7, 7, 7, 7], [7, 7, 7, 7], [7, 7, 7, 7],
        [7, 7, 7, 7]]
      (MaskPix.mk 4 4
        (fun i j => (i == 0 && j == 0) || (i == 3 && j == 3)))
      (List.replicate 256 0) (by decide) 0 1).1
      (Or.inr (Or.inr (by decide)))
    exact h.1.trans (by decide)
  · have h := (claim_C5 [[7, 7, 7, 7], [7, 7, 7, 7], [7, 7, 7, 7],
        [7, 7, 7, 7]]
      (MaskPix.mk 4 4
        (fun i j => (i == 0 && j == 0) || (i == 3 && j == 3)))
      (List.replicate 256 0) (by decide) 0 0).2
      (by decide) (by decide) (by decide) (by decide)
    exact h.1.trans (by decide)

theorem cubeLookup_none {idx : ℕ} :
    ∀ (cells : List (ℕ × ℕ)) (pos : ℕ),
      cubeLookup idx cells pos = none → ∀ ic ∈ cells, ic.1 ≠ idx := by
  intro cells
  induction cells with
  | nil =>
    intro pos _ ic hic
    simp at hic
  | cons c cs ih =>
    intro pos hl ic hic
    simp only [cubeLookup] at hl
    by_cases hc : c.1 = idx
    · rw [if_pos hc] at hl
      exact absurd hl (by simp)
    · rw [if_neg hc] at hl
      rcases List.mem_cons.mp hic with rfl | hmem
      · exact hc
      · exact ih (pos + 1) hl ic hmem

theorem cubeLookup_some {idx : ℕ} :
    ∀ (cells : List (ℕ × ℕ)) (pos : ℕ) (pc : ℕ × ℕ),
      cubeLookup idx cells pos = some pc → (idx, pc.2) ∈ cells := by
  intro cells
  induction cells with
  | nil =>
    intro pos pc hl
    simp [cubeLookup] at hl
  | cons c cs ih =>
    intro pos pc hl
    simp only [cubeLookup] at hl
    by_cases hc : c.1 = idx
    · rw [if_pos hc] at hl
      have h2 : pc.2 = c.2 := by
        rw [← Option.some.inj hl]
      refine List.mem_cons.mpr (Or.inl ?_)
      rw [h2, ← hc]
    · rw [if_neg hc] at hl
      exact List.mem_cons.mpr (Or.inr (ih (pos + 1) pc hl))

theorem dedup_length_append_cons_of_mem {l r : List ℕ} {a : ℕ}
    (h : a ∈ l) :
    (l ++ a :: r).dedup.length = (l ++ r).dedup.length := by
  rw [← List.card_toFinset, ← List.card_toFinset]
  congr 1
  ext x
  simp only [List.mem_toFinset, List.mem_append, List.mem_cons]
  constructor
  · rintro (hx | rfl | hx)
    · exact Or.inl hx
    · exact Or.inl h
    · exact Or.inr hx
  · rintro (hx | hx)
    · exact Or.inl hx
    · exact Or.inr (Or.inr hx)

theorem dedup_length_map_le (f : ℕ → ℕ) (l : List ℕ) :
    (l.map f).dedup.length ≤ l.dedup.length := by
  rw [← List.card_toFinset, ← List.card_toFinset]
  have him : (l.map f).toFinset = l.toFinset.image f := by
    ext x
    simp
  rw [him]
  exact Finset.card_image_le

theorem quantScan_cons_none {level p : ℕ} {ps : List ℕ}
    {cells : List (ℕ × ℕ)} {nerr : ℕ}
    (hl : cubeLookup (octPixelIndex level p) cells 0 = none) :
    quantScan level (p :: ps) cells nerr =
      ((quantScan level ps (cells ++ [(octPixelIndex level p, p)]) nerr).1,
       (quantScan level ps (cells ++ [(octPixelIndex level p, p)]) nerr).2.1,
       cells.length ::
         (quantScan level ps
           (cells ++ [(octPixelIndex level p, p)]) nerr).2.2) := by
  simp only [quantScan]
  rw [hl]

theorem quantScan_cons_some {level p : ℕ} {ps : List ℕ}
    {cells : List (ℕ × ℕ)} {nerr : ℕ} {pc : ℕ × ℕ}
    (hl : cubeLookup (octPixelIndex level p) cells 0 = some pc) :
    quantScan level (p :: ps) cells nerr =
      ((quantScan level ps cells (if pc.2 = p then nerr else nerr + 1)).1,
       (quantScan level ps cells (if pc.2 = p then nerr else nerr + 1)).2.1,
       pc.1 ::
         (quantScan level ps cells
           (if pc.2 = p then nerr else nerr + 1)).2.2) := by
  simp only [quantScan]
  rw [hl]

/-- The invariant of the re-scan: when cells record their own octcube
index, winners are distinct and no two pixels anywhere share an octcube
without being equal, the scan adds no errors and ends with one cell per
distinct color. -/
theorem quantScan_spec (level : ℕ) :
    ∀ (ps : List ℕ) (cells : List (ℕ × ℕ)) (nerr : ℕ),
      (∀ ic ∈ cells, ic.1 = octPixelIndex level ic.2) →
      (cells.map Prod.snd).Nodup →
      (∀ x ∈ cells.map Prod.snd ++ ps, ∀ y ∈ cells.map Prod.snd ++ ps,
        octPixelIndex level x = octPixelIndex level y → x = y) →
      (quantScan level ps cells nerr).2.1 = nerr ∧
      (quantScan level ps cells nerr).1.length =
        (cells.map Prod.snd ++ ps).dedup.length := by
  intro ps
  induction ps with
  | nil =>
    intro cells nerr hinv hnd _
    refine ⟨rfl, ?_⟩
    simp only [quantScan, List.append_nil]
    rw [List.dedup_eq_self.mpr hnd, List.length_map]
  | cons p ps ih =>
    intro cells nerr hinv hnd hinj
    cases hl : cubeLookup (octPixelIndex level p) cells 0 with
    | none =>
      have hnot := cubeLookup_none cells 0 hl
      have hpnot : p ∉ cells.map Prod.snd := by
        intro hmem
        simp only [List.mem_map] at hmem
        obtain ⟨ic, hic, hic2⟩ := hmem
        exact hnot ic hic (by rw [hinv ic hic, hic2])
      have hinv2 : ∀ ic ∈ cells ++ [(octPixelIndex level p, p)],
          ic.1 = octPixelIndex level ic.2 := by
        intro ic hic
        rcases List.mem_append.mp hic with hic | hic
        · exact hinv ic hic
        · simp only [List.mem_singleton] at hic
          rw [hic]
      have hnd2 : ((cells ++ [(octPixelIndex level p, p)]).map
          Prod.snd).Nodup := by
        rw [List.map_append]
        refine hnd.append (List.nodup_singleton p) ?_
        intro x hx hx2
        simp only [List.map_cons, List.map_nil, List.mem_singleton] at hx2
        exact hpnot (hx2 ▸ hx)
      have hinj2 : ∀ x ∈ (cells ++ [(octPixelIndex level p, p)]).map
            Prod.snd ++ ps,
          ∀ y ∈ (cells ++ [(octPixelIndex level p, p)]).map Prod.snd ++ ps,
          octPixelIndex level x = octPixelIndex level y → x = y := by
        intro x hx y hy
        refine hinj x ?_ y ?_
        · simp only [List.map_append, List.map_cons, List.map_nil,
            List.mem_append, List.mem_singleton, List.mem_cons] at hx ⊢
          tauto
        · simp only [List.map_append, List.map_cons, List.map_nil,
            List.mem_append, List.mem_singleton, List.mem_cons] at hy ⊢
          tauto
      have hres := ih (cells ++ [(octPixelIndex level p, p)]) nerr
        hinv2 hnd2 hinj2
      rw [quantScan_cons_none hl]
      refine ⟨hres.1, ?_⟩
      rw [hres.2]
      have hli : (cells ++ [(octPixelIndex level p, p)]).map Prod.snd ++ ps =
          cells.map Prod.snd ++ p :: ps := by
        rw [List.map_append]
        simp [List.append_assoc]
      rw [hli]
    | some pc =>
      have hmem := cubeLookup_some cells 0 pc hl
      have hc2 : pc.2 ∈ cells.map Prod.snd :=
        List.mem_map.mpr ⟨(octPixelIndex level p, pc.2), hmem, rfl⟩
      have hoct : octPixelIndex level pc.2 = octPixelIndex level p :=
        (hinv _ hmem).symm
      have heq : pc.2 = p := by
        refine hinj pc.2 ?_ p ?_ hoct
        · exact List.mem_append.mpr (Or.inl hc2)
        · exact List.mem_append.mpr (Or.inr (List.mem_cons_self p ps))
      have hinj2 : ∀ x ∈ cells.map Prod.snd ++ ps,
          ∀ y ∈ cells.map Prod.snd ++ ps,
          octPixelIndex level x = octPixelIndex level y → x = y := by
        intro x hx y hy
        refine hinj x ?_ y ?_
        · simp only [List.mem_append, List.mem_cons] at hx ⊢
          tauto
        · simp only [List.mem_append, List.mem_cons] at hy ⊢
          tauto
      have hres := ih cells nerr hinv hnd hinj2
      rw [quantScan_cons_some hl, if_pos heq]
      refine ⟨hres.1, ?_⟩
      rw [hres.2]
      exact (dedup_length_append_cons_of_mem (heq ▸ hc2)).symm

/-- Claim C4 counterexample: the 1x2 image with colors (0,0,0) and
(1,1,1) has two distinct colors (well under 256), yet at level 6 both
fall in octcube 0: pixConvertRGBToColormap reports one collision, not
zero, and builds a one-entry colormap, not two. -/
theorem claim_C4_cex :
    pixConvertRGBToColormap [[0, 16843008]] 6 =
      some (.exact 2 [0, 0] [(0, 0, 0)], 1) ∧
    ([0, 16843008] : List ℕ).dedup.length = 2 :=
  ⟨by decide, by decide⟩

/-- Claim C4 (amended): for every 32 bpp image with at most 256 distinct
pixel words in which no two distinct pixel words share a level-6
octcube, pixConvertRGBToColormap at level 6 takes the exact path,
reports zero collisions in *pnerrors, and returns a colormap whose entry
count equals the number of distinct pixel words. -/
theorem claim_C4 (rows : List (List ℕ))
    (hinj : ∀ x ∈ rows.flatten, ∀ y ∈ rows.flatten,
      octPixelIndex 6 x = octPixelIndex 6 y → x = y)
    (hcount : rows.flatten.dedup.length ≤ 256) :
    (pixConvertRGBToColormap rows 6).map
        (fun rc => (rc.1.isExact, rc.1.cmapSize, rc.2)) =
      some (true, rows.flatten.dedup.length, 0) := by
  have hn : (rows.flatten.map (octPixelIndex 6)).dedup.length ≤ 256 :=
    le_trans (dedup_length_map_le _ _) hcount
  have hscan := quantScan_spec 6 rows.flatten [] 0 (by simp) (by simp)
    (by simpa using hinj)
  unfold pixConvertRGBToColormap
  rw [if_neg (by norm_num)]
  rw [if_neg (not_lt.mpr hn)]
  rw [Option.map_some']
  refine congrArg some ?_
  rw [Prod.mk.injEq, Prod.mk.injEq]
  refine ⟨rfl, ?_, ?_⟩
  · show ((quantScan 6 rows.flatten [] 0).1.map _).length = _
    rw [List.length_map, hscan.2]
    simp
  · show ((quantScan 6 rows.flatten [] 0).2.1 : ℤ) = 0
    rw [hscan.1]
    norm_num

/-- Claim C4 witness: a 1x2 image with colors (0,0,0) and (255,0,0),
which occupy distinct level-6 octcubes. -/
theorem claim_C4_witness :
    (∀ x ∈ ([[0, 4278190080]] : List (List ℕ)).flatten,
      ∀ y ∈ ([[0, 4278190080]] : List (List ℕ)).flatten,
        octPixelIndex 6 x = octPixelIndex 6 y → x = y) ∧
    ([[0, 4278190080]] : List (List ℕ)).flatten.dedup.length ≤ 256 ∧
    (pixConvertRGBToColormap [[0, 4278190080]] 6).map
        (fun rc => (rc.1.isExact, rc.1.cmapSize, rc.2)) =
      some (true, 2, 0) := by
  refine ⟨by decide, by decide, ?_⟩
  exact (claim_C4 [[0, 4278190080]] (by decide) (by decide)).trans
    (by decide)

/-- Claim C10: whenever the occupied octcube count at the given level
exceeds 256, pixConvertRGBToColormap returns the approximate octree
quantizer's result requested with 220 colors and dithering on, and
leaves *pnerrors at the UNDEF sentinel. -/
theorem claim_C10 (rows : List (List ℕ)) (level : ℕ) (h1 : 1 ≤ level)
    (h2 : level ≤ 6)
    (hbig : 256 < (rows.flatten.map (octPixelIndex level)).dedup.length) :
    pixConvertRGBToColormap rows level =
      some (.fallback 220 1, UNDEF) := by
  unfold pixConvertRGBToColormap
  rw [if_neg (by omega)]
  rw [if_pos hbig]
  rfl

/-- Claim C10 witness: 257 pixels in 257 distinct level-3 octcubes force
the fallback. -/
theorem claim_C10_witness :
    256 < (([(List.range 257).map (fun k =>
        ((k / 64) * 32) <<< 24 ||| (((k / 8) % 8) * 32) <<< 16 |||
        ((k % 8) * 32) <<< 8)] : List (List ℕ)).flatten.map
          (octPixelIndex 3)).dedup.length ∧
    pixConvertRGBToColormap [(List.range 257).map (fun k =>
        ((k / 64) * 32) <<< 24 ||| (((k / 8) % 8) * 32) <<< 16 |||
        ((k % 8) * 32) <<< 8)] 3 =
      some (.fallback 220 1, UNDEF) := by
  have hbig : 256 < (([(List.range 257).map (fun k =>
      ((k / 64) * 32) <<< 24 ||| (((k / 8) % 8) * 32) <<< 16 |||
      ((k % 8) * 32) <<< 8)] : List (List ℕ)).flatten.map
        (octPixelIndex 3)).dedup.length := by decide
  exact ⟨hbig, claim_C10 _ 3 (by norm_num) (by norm_num) hbig⟩

end Leptonica
